import Mathlib

/-
Verification of the scope-filtered directory-listing engine of the
project-scopes VS Code extension (extension.js, first ScopeManager variant,
and scopeFileSystemProvider.js).

JavaScript strings are embedded as lists of characters (JStr), so that every
definition is executable by kernel reduction.  JS objects used as string-keyed
maps are embedded as association lists with JS object semantics (jsGet, jsSet,
jsDelete).  Filesystem contents are embedded as a finite tree (FsNode), with a
distinguished constructor for directories whose readdir call fails.
-/

namespace ProjectScopes

/-- A JavaScript string, embedded as its list of characters. -/
abbrev JStr := List Char

/-- Character-list form of a Lean string literal. -/
def jstr (s : String) : JStr := s.data

/-- A stored scope: folder list, description, creation timestamp (ISO string).
Mirrors the objects stored in this.scopes in extension.js. -/
structure Scope where
  folders : List JStr
  description : JStr
  created : JStr
deriving Repr, DecidableEq

/-- The scope collection: a JS object keyed by scope name. -/
abbrev ScopeMap := List (JStr × Scope)

/-- JS object property read: scopes[name], none when absent (undefined). -/
def jsGet (m : ScopeMap) (k : JStr) : Option Scope :=
  match m with
  | [] => none
  | (k1, v) :: rest => if k1 = k then some v else jsGet rest k

/-- JS object property write: scopes[name] = v.  Overwrites in place when the
key exists, otherwise appends (JS insertion order). -/
def jsSet (m : ScopeMap) (k : JStr) (v : Scope) : ScopeMap :=
  match m with
  | [] => [(k, v)]
  | (k1, v1) :: rest => if k1 = k then (k1, v) :: rest else (k1, v1) :: jsSet rest k v

/-- JS delete scopes[name]. -/
def jsDelete (m : ScopeMap) (k : JStr) : ScopeMap :=
  m.filter (fun p => p.1 ≠ k)

/-- folder.replace(two backslashes regex, slash) in shouldShowEntry:
every backslash character becomes a forward slash. -/
def normalizeSep (s : JStr) : JStr :=
  s.map (fun c => if c = '\\' then '/' else c)

/-- The per-folder test inside the loop of shouldShowEntry
(scopeFileSystemProvider.js lines 100-117): the normalized candidate equals
the normalized folder, or is strictly inside it, or the folder is strictly
inside the candidate. -/
def folderMatches (relativePath folder : JStr) : Bool :=
  let normalizedFolder := normalizeSep folder
  let normalizedPath := normalizeSep relativePath
  decide (normalizedPath = normalizedFolder)
    || (normalizedFolder ++ ['/']).isPrefixOf normalizedPath
    || (normalizedPath ++ ['/']).isPrefixOf normalizedFolder

/-- shouldShowEntry (scopeFileSystemProvider.js lines 91-120).  A null active
scope is Option.none; the empty string is also falsy in JS, hence the extra
test.  A name missing from the collection also yields true. -/
def shouldShowEntry (relativePath : JStr) (activeScope : Option JStr)
    (scopes : ScopeMap) : Bool :=
  match activeScope with
  | none => true
  | some name =>
    if name = [] then true
    else
      match jsGet scopes name with
      | none => true
      | some sc => sc.folders.any (fun folder => folderMatches relativePath folder)

/-- A raw readdir entry (withFileTypes: name and directory flag). -/
structure DirEntry where
  name : JStr
  isDir : Bool
deriving Repr, DecidableEq

/-- vscode.FileType as used by the provider. -/
inductive FileType where
  | file
  | directory
deriving Repr, DecidableEq

/-- The FileType chosen for an entry in _readDirectory. -/
def entryType (e : DirEntry) : FileType :=
  if e.isDir then FileType.directory else FileType.file

/-- path.join(fsPath, entry.name) followed by getRelativePath: the
workspace-relative path of an entry of a directory whose own relative path is
dirRel (empty for the workspace root). -/
def joinRel (dirRel name : JStr) : JStr :=
  if dirRel = [] then name else dirRel ++ '/' :: name

/-- _readDirectory (scopeFileSystemProvider.js lines 62-89).  The raw listing
is none when fs.promises.readdir rejects: the catch rethrows as a
FileSystemError, embedded as Except.error.  Otherwise every entry passing
shouldShowEntry is kept, in order, with its FileType. -/
def readDirectory (dirRel : JStr) (listing : Option (List DirEntry))
    (activeScope : Option JStr) (scopes : ScopeMap) :
    Except Unit (List (JStr × FileType)) :=
  match listing with
  | none => Except.error ()
  | some entries =>
    Except.ok (entries.filterMap (fun e =>
      if shouldShowEntry (joinRel dirRel e.name) activeScope scopes
      then some (e.name, entryType e)
      else none))

/-- C1: with an active scope present in the collection (with folder list F),
shouldShowEntry answers true exactly when the candidate path, after separator
normalization, equals a folder of F, or lies strictly inside one (folder plus
separator is a prefix of it), or is a strict ancestor of one (it plus
separator is a prefix of the folder); every other path is hidden. -/
theorem c1_shouldShowEntry_iff (p name : JStr) (scopes : ScopeMap) (sc : Scope)
    (hname : name ≠ []) (hfind : jsGet scopes name = some sc) :
    shouldShowEntry p (some name) scopes = true ↔
      ∃ f ∈ sc.folders,
        normalizeSep p = normalizeSep f
        ∨ (normalizeSep f ++ ['/']).isPrefixOf (normalizeSep p) = true
        ∨ (normalizeSep p ++ ['/']).isPrefixOf (normalizeSep f) = true := by
  simp only [shouldShowEntry, if_neg hname, hfind, List.any_eq_true, folderMatches,
    Bool.or_eq_true, decide_eq_true_eq, or_assoc]

/-- C1 witness: concrete evaluation on a one-scope collection. -/
theorem c1_shouldShowEntry_iff_witness :
    shouldShowEntry (jstr "src/components")
        (some (jstr "A")) [(jstr "A", ⟨[jstr "src"], [], []⟩)] = true ↔
      ∃ f ∈ [jstr "src"],
        normalizeSep (jstr "src/components") = normalizeSep f
        ∨ (normalizeSep f ++ ['/']).isPrefixOf (normalizeSep (jstr "src/components")) = true
        ∨ (normalizeSep (jstr "src/components") ++ ['/']).isPrefixOf (normalizeSep f) = true :=
  c1_shouldShowEntry_iff (jstr "src/components") (jstr "A")
    [(jstr "A", ⟨[jstr "src"], [], []⟩)] ⟨[jstr "src"], [], []⟩
    (by decide) (by decide)

/-- When the visibility decision accepts every path, readDirectory keeps every
raw entry, in order. -/
theorem readDirectory_all_visible (dirRel : JStr) (entries : List DirEntry)
    (a : Option JStr) (scopes : ScopeMap)
    (h : ∀ q, shouldShowEntry q a scopes = true) :
    readDirectory dirRel (some entries) a scopes =
      Except.ok (entries.map (fun e => (e.name, entryType e))) := by
  simp only [readDirectory, Except.ok.injEq, h, if_true]
  induction entries with
  | nil => rfl
  | cons e es ih => simp only [List.filterMap_cons, List.map_cons, ih]

/-- C2: with no active scope every path is visible, and readDirectory is a
transparent pass-through: it returns every raw entry of the listing, in order,
with its file type. -/
theorem c2_no_scope_pass_through (p : JStr) (scopes : ScopeMap)
    (dirRel : JStr) (entries : List DirEntry) :
    shouldShowEntry p none scopes = true ∧
    readDirectory dirRel (some entries) none scopes =
      Except.ok (entries.map (fun e => (e.name, entryType e))) :=
  ⟨rfl, readDirectory_all_visible dirRel entries none scopes (fun _ => rfl)⟩

/-- C10: a stale active-scope name (absent from the collection) behaves
exactly like no active scope: every path is visible and readDirectory
produces the same result as with a null active scope. -/
theorem c10_stale_scope_like_none (p name : JStr) (scopes : ScopeMap)
    (dirRel : JStr) (listing : Option (List DirEntry))
    (hstale : jsGet scopes name = none) :
    shouldShowEntry p (some name) scopes = true ∧
    readDirectory dirRel listing (some name) scopes =
      readDirectory dirRel listing none scopes := by
  have hshow : ∀ q : JStr, shouldShowEntry q (some name) scopes = true := by
    intro q
    by_cases hq : name = []
    · simp [shouldShowEntry, hq]
    · simp [shouldShowEntry, hq, hstale]
  refine ⟨hshow p, ?_⟩
  cases listing with
  | none => rfl
  | some entries =>
    rw [readDirectory_all_visible dirRel entries (some name) scopes hshow,
      readDirectory_all_visible dirRel entries none scopes (fun _ => rfl)]

/-- C10 witness: a collection without the persisted name Ghost. -/
theorem c10_stale_scope_like_none_witness :
    shouldShowEntry (jstr "src") (some (jstr "Ghost"))
        [(jstr "A", ⟨[jstr "docs"], [], []⟩)] = true ∧
    readDirectory [] (some [⟨jstr "src", true⟩]) (some (jstr "Ghost"))
        [(jstr "A", ⟨[jstr "docs"], [], []⟩)] =
      readDirectory [] (some [⟨jstr "src", true⟩]) none
        [(jstr "A", ⟨[jstr "docs"], [], []⟩)] :=
  c10_stale_scope_like_none (jstr "src") (jstr "Ghost")
    [(jstr "A", ⟨[jstr "docs"], [], []⟩)] [] (some [⟨jstr "src", true⟩])
    (by decide)

/-- JS String.prototype.trim: strip whitespace from both ends. -/
def jsTrim (s : JStr) : JStr :=
  ((s.dropWhile Char.isWhitespace).reverse.dropWhile Char.isWhitespace).reverse

/-- Validation errors of the scope store, plus the propagated failure of the
awaited settings save (config.update rejecting inside saveScopes). -/
inductive ScopeError where
  | EmptyName
  | DuplicateName
  | NotFound
  | EmptyFolderSet
  | PersistFailed
deriving Repr, DecidableEq

/-- The in-memory state of ScopeManager: this.scopes and this.activeScope. -/
structure ManagerState where
  scopes : ScopeMap
  activeScope : Option JStr
deriving Repr, DecidableEq

/-- Observable side actions of a mutating operation: a completed durable save
(awaited config.update) and a fired scopes-changed event.  When the save
rejects, execution stops there, so neither action is recorded. -/
inductive Act where
  | save
  | fire
deriving Repr, DecidableEq

/-- createScope (extension.js lines 160-195, first variant).  The input-box
validator rejects an empty trimmed name and an existing key; an empty folder
selection aborts.  On success the scope is stored and saved.  This variant
fires no scopes-changed event after creation. -/
def createScope (st : ManagerState) (name : JStr) (folders : List JStr)
    (now : JStr) (persistOk : Bool) : Except ScopeError ManagerState × List Act :=
  if jsTrim name = [] then (Except.error ScopeError.EmptyName, [])
  else if (jsGet st.scopes name).isSome = true then (Except.error ScopeError.DuplicateName, [])
  else if folders = [] then (Except.error ScopeError.EmptyFolderSet, [])
  else
    let st1 : ManagerState :=
      { st with scopes := jsSet st.scopes name ⟨folders, [], now⟩ }
    if persistOk then (Except.ok st1, [Act.save]) else (Except.error ScopeError.PersistFailed, [])

/-- editScopeName (extension.js lines 232-259).  Guarded by editScope on a
present scope; the validator rejects an empty trimmed name and a clash with a
different existing key; a new name equal to the old is a silent no-op.  On an
actual rename the entry is re-keyed, the active reference is updated when it
pointed at the old name, and after the awaited save one event fires. -/
def editScopeName (st : ManagerState) (oldName newName : JStr)
    (persistOk : Bool) : Except ScopeError ManagerState × List Act :=
  match jsGet st.scopes oldName with
  | none => (Except.error ScopeError.NotFound, [])
  | some sc =>
    if jsTrim newName = [] then (Except.error ScopeError.EmptyName, [])
    else if newName ≠ oldName ∧ (jsGet st.scopes newName).isSome = true then
      (Except.error ScopeError.DuplicateName, [])
    else if newName = oldName then (Except.ok st, [])
    else
      let st1 : ManagerState :=
        { scopes := jsDelete (jsSet st.scopes newName sc) oldName,
          activeScope := if st.activeScope = some oldName then some newName
            else st.activeScope }
      if persistOk then (Except.ok st1, [Act.save, Act.fire])
      else (Except.error ScopeError.PersistFailed, [])

/-- editScopeFolders (extension.js lines 261-275).  Guarded by editScope on a
present scope; only a cancelled selection (null) aborts, so any list, even
empty, is stored.  Description and creation time are preserved; after the
awaited save one event fires. -/
def editScopeFolders (st : ManagerState) (name : JStr) (folders : List JStr)
    (persistOk : Bool) : Except ScopeError ManagerState × List Act :=
  match jsGet st.scopes name with
  | none => (Except.error ScopeError.NotFound, [])
  | some sc =>
    let st1 : ManagerState :=
      { st with scopes := jsSet st.scopes name { sc with folders := folders } }
    if persistOk then (Except.ok st1, [Act.save, Act.fire])
    else (Except.error ScopeError.PersistFailed, [])

/-- editScopeDescription (extension.js lines 277-295).  Guarded by editScope
on a present scope.  The description is overwritten and saved; this operation
fires no scopes-changed event in the source. -/
def editScopeDescription (st : ManagerState) (name description : JStr)
    (persistOk : Bool) : Except ScopeError ManagerState × List Act :=
  match jsGet st.scopes name with
  | none => (Except.error ScopeError.NotFound, [])
  | some sc =>
    let st1 : ManagerState :=
      { st with scopes := jsSet st.scopes name { sc with description := description } }
    if persistOk then (Except.ok st1, [Act.save])
    else (Except.error ScopeError.PersistFailed, [])

/-- deleteScope (extension.js lines 297-330).  A missing name aborts; on
deletion the active reference is cleared when it pointed at the deleted
scope, and after the awaited save one event fires. -/
def deleteScope (st : ManagerState) (name : JStr) (persistOk : Bool) :
    Except ScopeError ManagerState × List Act :=
  match jsGet st.scopes name with
  | none => (Except.error ScopeError.NotFound, [])
  | some _ =>
    let st1 : ManagerState :=
      { scopes := jsDelete st.scopes name,
        activeScope := if st.activeScope = some name then none else st.activeScope }
    if persistOk then (Except.ok st1, [Act.save, Act.fire])
    else (Except.error ScopeError.PersistFailed, [])

/-- setActiveScope (extension.js lines 369-382).  A name absent from the
collection aborts with an error message; otherwise the reference is set and
after the awaited save one event fires. -/
def setActiveScope (st : ManagerState) (name : JStr) (persistOk : Bool) :
    Except ScopeError ManagerState × List Act :=
  if (jsGet st.scopes name).isSome = true then
    let st1 : ManagerState := { st with activeScope := some name }
    if persistOk then (Except.ok st1, [Act.save, Act.fire])
    else (Except.error ScopeError.PersistFailed, [])
  else (Except.error ScopeError.NotFound, [])

/-- clearActiveScope (extension.js lines 384-398).  With no active scope (null
or the falsy empty string) it is a silent no-op; otherwise the reference is
cleared and after the awaited save one event fires. -/
def clearActiveScope (st : ManagerState) (persistOk : Bool) :
    Except ScopeError ManagerState × List Act :=
  match st.activeScope with
  | none => (Except.ok st, [])
  | some s =>
    if s = [] then (Except.ok st, [])
    else
      let st1 : ManagerState := { st with activeScope := none }
      if persistOk then (Except.ok st1, [Act.save, Act.fire])
      else (Except.error ScopeError.PersistFailed, [])

theorem jsGet_jsSet_self (m : ScopeMap) (k : JStr) (v : Scope) :
    jsGet (jsSet m k v) k = some v := by
  induction m with
  | nil => simp [jsGet, jsSet]
  | cons p rest ih =>
    by_cases h : p.1 = k
    · simp [jsGet, jsSet, h]
    · simp [jsGet, jsSet, h, ih]

theorem jsGet_jsSet_ne (m : ScopeMap) (k k1 : JStr) (v : Scope) (h : k1 ≠ k) :
    jsGet (jsSet m k v) k1 = jsGet m k1 := by
  induction m with
  | nil =>
    simp only [jsSet, jsGet]
    rw [if_neg (fun hh : k = k1 => h hh.symm)]
  | cons p rest ih =>
    by_cases hp : p.1 = k
    · have hp1 : ¬ p.1 = k1 := fun hh => h (hh ▸ hp)
      simp only [jsSet, if_pos hp, jsGet]
      rw [if_neg hp1, if_neg hp1]
    · simp only [jsSet, if_neg hp, jsGet]
      by_cases hp1 : p.1 = k1
      · rw [if_pos hp1, if_pos hp1]
      · rw [if_neg hp1, if_neg hp1, ih]

theorem jsGet_jsDelete_self (m : ScopeMap) (k : JStr) :
    jsGet (jsDelete m k) k = none := by
  induction m with
  | nil => rfl
  | cons p rest ih =>
    by_cases hp : p.1 = k
    · simpa [jsDelete, List.filter_cons, hp] using ih
    · simpa [jsDelete, List.filter_cons, hp, jsGet] using ih

theorem jsGet_jsDelete_ne (m : ScopeMap) (k k1 : JStr) (h : k1 ≠ k) :
    jsGet (jsDelete m k) k1 = jsGet m k1 := by
  induction m with
  | nil => rfl
  | cons p rest ih =>
    by_cases hp : p.1 = k
    · have hp1 : ¬ p.1 = k1 := fun hh => h (hh ▸ hp)
      calc jsGet (jsDelete (p :: rest) k) k1
          = jsGet (jsDelete rest k) k1 := by
            simp [jsDelete, List.filter_cons, hp]
        _ = jsGet rest k1 := ih
        _ = jsGet (p :: rest) k1 := by simp [jsGet, hp1]
    · calc jsGet (jsDelete (p :: rest) k) k1
          = jsGet (p :: jsDelete rest k) k1 := by
            simp [jsDelete, List.filter_cons, hp]
        _ = jsGet (p :: rest) k1 := by
            by_cases hp1 : p.1 = k1
            · simp [jsGet, hp1]
            · simp [jsGet, hp1, ih]

/-- The active reference is null or names a scope present in the collection. -/
def ActiveValid (st : ManagerState) : Prop :=
  ∀ n, st.activeScope = some n → (jsGet st.scopes n).isSome = true

/-- C5: a valid (trimmed non-empty) name not yet in the collection with a
non-empty folder list is created successfully and getScopes then maps the name
to exactly the provided folder list; a name already present (case-sensitive
exact key match) fails with DuplicateName whatever the folders. -/
theorem c5_createScope_spec (st : ManagerState) (name : JStr)
    (folders : List JStr) (now : JStr) (htrim : jsTrim name ≠ []) :
    (jsGet st.scopes name = none → folders ≠ [] →
      ∃ st1, createScope st name folders now true = (Except.ok st1, [Act.save]) ∧
        jsGet st1.scopes name = some ⟨folders, [], now⟩ ∧
        st1.activeScope = st.activeScope) ∧
    (∀ sc, jsGet st.scopes name = some sc → ∀ persistOk,
      createScope st name folders now persistOk =
        (Except.error ScopeError.DuplicateName, [])) := by
  constructor
  · intro hnew hfold
    refine ⟨{ st with scopes := jsSet st.scopes name ⟨folders, [], now⟩ },
      ?_, ?_, rfl⟩
    · simp [createScope, htrim, hnew, hfold]
    · exact jsGet_jsSet_self st.scopes name ⟨folders, [], now⟩
  · intro sc hdup persistOk
    simp [createScope, htrim, hdup]

/-- C5 witness: creation into an empty store, then a duplicate rejection. -/
theorem c5_createScope_spec_witness :
    (∃ st1, createScope ⟨[], none⟩ (jstr "Frontend") [jstr "src"] (jstr "t") true =
        (Except.ok st1, [Act.save]) ∧
      jsGet st1.scopes (jstr "Frontend") = some ⟨[jstr "src"], [], jstr "t"⟩ ∧
      st1.activeScope = none) ∧
    createScope ⟨[(jstr "Frontend", ⟨[jstr "src"], [], jstr "t"⟩)], none⟩
        (jstr "Frontend") [jstr "docs"] (jstr "u") true =
      (Except.error ScopeError.DuplicateName, []) :=
  ⟨(c5_createScope_spec ⟨[], none⟩ (jstr "Frontend") [jstr "src"] (jstr "t")
      (by decide)).1 rfl (by decide),
    (c5_createScope_spec ⟨[(jstr "Frontend", ⟨[jstr "src"], [], jstr "t"⟩)], none⟩
      (jstr "Frontend") [jstr "docs"] (jstr "u") (by decide)).2
      ⟨[jstr "src"], [], jstr "t"⟩ rfl true⟩

/-- C8: clearing the active scope twice leaves the same scope collection and
active reference as clearing once, and renaming a scope to its own name is a
successful no-op that changes no observable state. -/
theorem c8_clear_idempotent_rename_noop (st : ManagerState) (name : JStr)
    (sc : Scope) (persistOk : Bool)
    (hfind : jsGet st.scopes name = some sc) (htrim : jsTrim name ≠ []) :
    (∃ st1 tr1, clearActiveScope st true = (Except.ok st1, tr1) ∧
      clearActiveScope st1 true = (Except.ok st1, [])) ∧
    editScopeName st name name persistOk = (Except.ok st, []) := by
  constructor
  · cases ha : st.activeScope with
    | none =>
      exact ⟨st, [], by simp [clearActiveScope, ha], by simp [clearActiveScope, ha]⟩
    | some s =>
      by_cases hs : s = []
      · exact ⟨st, [], by simp [clearActiveScope, ha, hs],
          by simp [clearActiveScope, ha, hs]⟩
      · exact ⟨{ st with activeScope := none }, [Act.save, Act.fire],
          by simp [clearActiveScope, ha, hs], by simp [clearActiveScope]⟩
  · simp [editScopeName, hfind, htrim]

/-- C8 witness: a store with one active scope named A. -/
theorem c8_clear_idempotent_rename_noop_witness :
    (∃ st1 tr1,
      clearActiveScope ⟨[(jstr "A", ⟨[jstr "src"], [], []⟩)], some (jstr "A")⟩ true =
        (Except.ok st1, tr1) ∧
      clearActiveScope st1 true = (Except.ok st1, [])) ∧
    editScopeName ⟨[(jstr "A", ⟨[jstr "src"], [], []⟩)], some (jstr "A")⟩
        (jstr "A") (jstr "A") true =
      (Except.ok ⟨[(jstr "A", ⟨[jstr "src"], [], []⟩)], some (jstr "A")⟩, []) :=
  c8_clear_idempotent_rename_noop
    ⟨[(jstr "A", ⟨[jstr "src"], [], []⟩)], some (jstr "A")⟩
    (jstr "A") ⟨[jstr "src"], [], []⟩ true (by decide) (by decide)

/-- C7: every successful mutating operation keeps the active reference valid
(null or naming a present scope); deleting the active scope leaves it null;
renaming the active scope re-points it at the new name. -/
theorem c7_active_never_dangling (st : ManagerState) (hinv : ActiveValid st) :
    (∀ name folders now st1 tr,
      createScope st name folders now true = (Except.ok st1, tr) → ActiveValid st1) ∧
    (∀ o n st1 tr,
      editScopeName st o n true = (Except.ok st1, tr) → ActiveValid st1) ∧
    (∀ name folders st1 tr,
      editScopeFolders st name folders true = (Except.ok st1, tr) → ActiveValid st1) ∧
    (∀ name d st1 tr,
      editScopeDescription st name d true = (Except.ok st1, tr) → ActiveValid st1) ∧
    (∀ name st1 tr,
      deleteScope st name true = (Except.ok st1, tr) → ActiveValid st1) ∧
    (∀ name st1 tr,
      setActiveScope st name true = (Except.ok st1, tr) → ActiveValid st1) ∧
    (∀ st1 tr,
      clearActiveScope st true = (Except.ok st1, tr) → ActiveValid st1) ∧
    (∀ name st1 tr, deleteScope st name true = (Except.ok st1, tr) →
      st.activeScope = some name → st1.activeScope = none) ∧
    (∀ o n st1 tr, editScopeName st o n true = (Except.ok st1, tr) →
      st.activeScope = some o → st1.activeScope = some n) := by
  refine ⟨?_, ?_, ?_, ?_, ?_, ?_, ?_, ?_, ?_⟩
  · intro name folders now st1 tr h
    simp only [createScope] at h
    split_ifs at h with h1 h2 h3
    · exact absurd h (by simp)
    · exact absurd h (by simp)
    · exact absurd h (by simp)
    · obtain ⟨hst, htr⟩ := Prod.mk.injEq .. ▸ h
      obtain rfl := (Except.ok.injEq .. ▸ hst)
      intro x hx
      have hv := hinv x hx
      by_cases hk : x = name
      · subst hk
        simp [jsGet_jsSet_self]
      · rw [jsGet_jsSet_ne _ _ _ _ hk]
        exact hv
  · intro o n st1 tr h
    cases hfind : jsGet st.scopes o with
    | none => simp [editScopeName, hfind] at h
    | some sc =>
      simp only [editScopeName, hfind] at h
      split_ifs at h with h1 h2 h3 hao
      · exact absurd h (by simp)
      · exact absurd h (by simp)
      · obtain ⟨hst, htr⟩ := Prod.mk.injEq .. ▸ h
        obtain rfl := (Except.ok.injEq .. ▸ hst)
        exact hinv
      · obtain ⟨hst, htr⟩ := Prod.mk.injEq .. ▸ h
        obtain rfl := (Except.ok.injEq .. ▸ hst)
        intro x hx
        obtain rfl := (Option.some.injEq .. ▸ hx)
        rw [jsGet_jsDelete_ne _ _ _ h3, jsGet_jsSet_self]
        rfl
      · obtain ⟨hst, htr⟩ := Prod.mk.injEq .. ▸ h
        obtain rfl := (Except.ok.injEq .. ▸ hst)
        have hno : jsGet st.scopes n = none := by
          rcases Option.eq_none_or_eq_some (jsGet st.scopes n) with hn | ⟨v, hv⟩
          · exact hn
          · exact absurd ⟨h3, by simp [hv]⟩ h2
        intro x hx
        have hv := hinv x hx
        have hxo : x ≠ o := fun hh => hao (hh ▸ hx)
        have hxn : x ≠ n := fun hh => by
          rw [hh, hno] at hv
          exact absurd hv (by simp)
        rw [jsGet_jsDelete_ne _ _ _ hxo, jsGet_jsSet_ne _ _ _ _ hxn]
        exact hv
  · intro name folders st1 tr h
    cases hfind : jsGet st.scopes name with
    | none => simp [editScopeFolders, hfind] at h
    | some sc =>
      simp only [editScopeFolders, hfind, if_true] at h
      obtain ⟨hst, htr⟩ := Prod.mk.injEq .. ▸ h
      obtain rfl := (Except.ok.injEq .. ▸ hst)
      intro x hx
      have hv := hinv x hx
      by_cases hk : x = name
      · subst hk
        simp [jsGet_jsSet_self]
      · rw [jsGet_jsSet_ne _ _ _ _ hk]
        exact hv
  · intro name d st1 tr h
    cases hfind : jsGet st.scopes name with
    | none => simp [editScopeDescription, hfind] at h
    | some sc =>
      simp only [editScopeDescription, hfind, if_true] at h
      obtain ⟨hst, htr⟩ := Prod.mk.injEq .. ▸ h
      obtain rfl := (Except.ok.injEq .. ▸ hst)
      intro x hx
      have hv := hinv x hx
      by_cases hk : x = name
      · subst hk
        simp [jsGet_jsSet_self]
      · rw [jsGet_jsSet_ne _ _ _ _ hk]
        exact hv
  · intro name st1 tr h
    cases hfind : jsGet st.scopes name with
    | none => simp [deleteScope, hfind] at h
    | some sc =>
      simp only [deleteScope, hfind, if_true] at h
      obtain ⟨hst, htr⟩ := Prod.mk.injEq .. ▸ h
      obtain rfl := (Except.ok.injEq .. ▸ hst)
      intro x hx
      by_cases hao : st.activeScope = some name
      · simp only [hao, if_pos] at hx
        exact absurd hx (by simp)
      · simp only [if_neg hao] at hx
        have hv := hinv x hx
        have hxn : x ≠ name := fun hh => hao (hh ▸ hx)
        rw [jsGet_jsDelete_ne _ _ _ hxn]
        exact hv
  · intro name st1 tr h
    simp only [setActiveScope] at h
    split_ifs at h with h1
    · obtain ⟨hst, htr⟩ := Prod.mk.injEq .. ▸ h
      obtain rfl := (Except.ok.injEq .. ▸ hst)
      intro x hx
      obtain rfl := (Option.some.injEq .. ▸ hx)
      exact h1
    · exact absurd h (by simp)
  · intro st1 tr h
    cases ha : st.activeScope with
    | none =>
      simp only [clearActiveScope, ha] at h
      obtain ⟨hst, htr⟩ := Prod.mk.injEq .. ▸ h
      obtain rfl := (Except.ok.injEq .. ▸ hst)
      exact hinv
    | some s =>
      simp only [clearActiveScope, ha] at h
      split_ifs at h with h1
      · obtain ⟨hst, htr⟩ := Prod.mk.injEq .. ▸ h
        obtain rfl := (Except.ok.injEq .. ▸ hst)
        exact hinv
      · obtain ⟨hst, htr⟩ := Prod.mk.injEq .. ▸ h
        obtain rfl := (Except.ok.injEq .. ▸ hst)
        intro x hx
        exact absurd hx (by simp)
  · intro name st1 tr h hact
    cases hfind : jsGet st.scopes name with
    | none => simp [deleteScope, hfind] at h
    | some sc =>
      simp only [deleteScope, hfind, if_true] at h
      obtain ⟨hst, htr⟩ := Prod.mk.injEq .. ▸ h
      obtain rfl := (Except.ok.injEq .. ▸ hst)
      simp [hact]
  · intro o n st1 tr h hact
    cases hfind : jsGet st.scopes o with
    | none => simp [editScopeName, hfind] at h
    | some sc =>
      simp only [editScopeName, hfind] at h
      split_ifs at h with h1 h2 h3
      · exact absurd h (by simp)
      · exact absurd h (by simp)
      · obtain ⟨hst, htr⟩ := Prod.mk.injEq .. ▸ h
        obtain rfl := (Except.ok.injEq .. ▸ hst)
        rw [hact, h3]
      · obtain ⟨hst, htr⟩ := Prod.mk.injEq .. ▸ h
        obtain rfl := (Except.ok.injEq .. ▸ hst)
        rfl

/-- C7 witness: the invariant argument applied to a concrete one-scope store,
through deletion of the active scope. -/
theorem c7_active_never_dangling_witness :
    deleteScope ⟨[(jstr "Frontend", ⟨[jstr "src"], [], []⟩)], some (jstr "Frontend")⟩
        (jstr "Frontend") true =
      (Except.ok ⟨[], none⟩, [Act.save, Act.fire]) ∧
    (⟨[], none⟩ : ManagerState).activeScope = none :=
  ⟨rfl,
    (c7_active_never_dangling
      ⟨[(jstr "Frontend", ⟨[jstr "src"], [], []⟩)], some (jstr "Frontend")⟩
      (by
        intro n hn
        rw [← Option.some.inj hn]
        decide)).2.2.2.2.2.2.2.1
      (jstr "Frontend") ⟨[], none⟩ [Act.save, Act.fire] rfl rfl⟩

/-- C9 counterexample: editScopeDescription on a present scope succeeds and
persists (trace contains the completed save) yet fires zero scopes-changed
events, refuting that every successful mutating operation fires exactly one. -/
theorem c9_counterexample_description_no_event :
    editScopeDescription ⟨[(jstr "A", ⟨[jstr "src"], [], []⟩)], none⟩
        (jstr "A") (jstr "x") true =
      (Except.ok ⟨[(jstr "A", ⟨[jstr "src"], jstr "x", []⟩)], none⟩, [Act.save]) ∧
    [Act.save].count Act.fire = 0 :=
  ⟨rfl, rfl⟩

/-- C9 amended: renameScope (actual rename), replaceFolders, deleteScope,
setActiveScope and clearActiveScope (with a non-empty active reference) each
fire exactly one scopes-changed event, strictly after the completed durable
save; createScope and setDescription persist the mutation but fire none; and
when persistence fails no operation fires any event. -/
theorem c9_events_after_persist (st : ManagerState) :
    (∀ o n st1 tr, o ≠ n →
      editScopeName st o n true = (Except.ok st1, tr) → tr = [Act.save, Act.fire]) ∧
    (∀ name folders st1 tr,
      editScopeFolders st name folders true = (Except.ok st1, tr) →
        tr = [Act.save, Act.fire]) ∧
    (∀ name st1 tr,
      deleteScope st name true = (Except.ok st1, tr) → tr = [Act.save, Act.fire]) ∧
    (∀ name st1 tr,
      setActiveScope st name true = (Except.ok st1, tr) → tr = [Act.save, Act.fire]) ∧
    (∀ s st1 tr, st.activeScope = some s → s ≠ [] →
      clearActiveScope st true = (Except.ok st1, tr) → tr = [Act.save, Act.fire]) ∧
    (∀ name folders now st1 tr,
      createScope st name folders now true = (Except.ok st1, tr) → tr = [Act.save]) ∧
    (∀ name d st1 tr,
      editScopeDescription st name d true = (Except.ok st1, tr) → tr = [Act.save]) ∧
    (∀ name folders now, (createScope st name folders now false).2 = []) ∧
    (∀ o n, (editScopeName st o n false).2 = []) ∧
    (∀ name folders, (editScopeFolders st name folders false).2 = []) ∧
    (∀ name d, (editScopeDescription st name d false).2 = []) ∧
    (∀ name, (deleteScope st name false).2 = []) ∧
    (∀ name, (setActiveScope st name false).2 = []) ∧
    ((clearActiveScope st false).2 = []) := by
  refine ⟨?_, ?_, ?_, ?_, ?_, ?_, ?_, ?_, ?_, ?_, ?_, ?_, ?_, ?_⟩
  · intro o n st1 tr hne h
    cases hfind : jsGet st.scopes o with
    | none => simp [editScopeName, hfind] at h
    | some sc =>
      simp only [editScopeName, hfind] at h
      split_ifs at h with h1 h2 h3
      · exact absurd h (by simp)
      · exact absurd h (by simp)
      · exact absurd h3.symm hne
      · obtain ⟨hst, htr⟩ := Prod.mk.injEq .. ▸ h
        exact htr.symm
      · obtain ⟨hst, htr⟩ := Prod.mk.injEq .. ▸ h
        exact htr.symm
  · intro name folders st1 tr h
    cases hfind : jsGet st.scopes name with
    | none => simp [editScopeFolders, hfind] at h
    | some sc =>
      simp only [editScopeFolders, hfind] at h
      obtain ⟨hst, htr⟩ := Prod.mk.injEq .. ▸ h
      exact htr.symm
  · intro name st1 tr h
    cases hfind : jsGet st.scopes name with
    | none => simp [deleteScope, hfind] at h
    | some sc =>
      simp only [deleteScope, hfind] at h
      obtain ⟨hst, htr⟩ := Prod.mk.injEq .. ▸ h
      exact htr.symm
  · intro name st1 tr h
    simp only [setActiveScope] at h
    split_ifs at h with h1
    · obtain ⟨hst, htr⟩ := Prod.mk.injEq .. ▸ h
      exact htr.symm
    · exact absurd h (by simp)
  · intro s st1 tr ha hs h
    simp only [clearActiveScope, ha] at h
    rw [if_neg hs] at h
    obtain ⟨hst, htr⟩ := Prod.mk.injEq .. ▸ h
    exact htr.symm
  · intro name folders now st1 tr h
    simp only [createScope] at h
    split_ifs at h with h1 h2 h3
    · exact absurd h (by simp)
    · exact absurd h (by simp)
    · exact absurd h (by simp)
    · obtain ⟨hst, htr⟩ := Prod.mk.injEq .. ▸ h
      exact htr.symm
  · intro name d st1 tr h
    cases hfind : jsGet st.scopes name with
    | none => simp [editScopeDescription, hfind] at h
    | some sc =>
      simp only [editScopeDescription, hfind] at h
      obtain ⟨hst, htr⟩ := Prod.mk.injEq .. ▸ h
      exact htr.symm
  · intro name folders now
    simp only [createScope]
    split_ifs <;> trivial
  · intro o n
    cases hfind : jsGet st.scopes o with
    | none => simp [editScopeName, hfind]
    | some sc =>
      simp only [editScopeName, hfind]
      split_ifs <;> trivial
  · intro name folders
    cases hfind : jsGet st.scopes name with
    | none => simp [editScopeFolders, hfind]
    | some sc => simp [editScopeFolders, hfind]
  · intro name d
    cases hfind : jsGet st.scopes name with
    | none => simp [editScopeDescription, hfind]
    | some sc => simp [editScopeDescription, hfind]
  · intro name
    cases hfind : jsGet st.scopes name with
    | none => simp [deleteScope, hfind]
    | some sc => simp [deleteScope, hfind]
  · intro name
    simp only [setActiveScope]
    split_ifs <;> trivial
  · cases ha : st.activeScope with
    | none => simp [clearActiveScope, ha]
    | some s =>
      simp only [clearActiveScope, ha]
      split_ifs <;> trivial

/-- C9 witness: one firing operation and one persistence failure, applied to a
concrete one-scope store. -/
theorem c9_events_after_persist_witness :
    (deleteScope ⟨[(jstr "A", ⟨[jstr "src"], [], []⟩)], none⟩ (jstr "A") true).2 =
      [Act.save, Act.fire] ∧
    (deleteScope ⟨[(jstr "A", ⟨[jstr "src"], [], []⟩)], none⟩ (jstr "A") false).2 = [] :=
  ⟨(c9_events_after_persist ⟨[(jstr "A", ⟨[jstr "src"], [], []⟩)], none⟩).2.2.1
      (jstr "A") ⟨[], none⟩
      (deleteScope ⟨[(jstr "A", ⟨[jstr "src"], [], []⟩)], none⟩ (jstr "A") true).2 rfl,
    (c9_events_after_persist ⟨[(jstr "A", ⟨[jstr "src"], [], []⟩)], none⟩).2.2.2.2.2.2.2.2.2.2.2.1
      (jstr "A")⟩

/-- A node of the filesystem under the enumeration root: a file, a readable
directory with its named children, or a directory whose readdir call rejects
(permissions, race-deleted, and so on). -/
inductive FsNode where
  | file : FsNode
  | dir : List (JStr × FsNode) → FsNode
  | unreadableDir : FsNode

/-- item.isDirectory() of a readdir dirent; true also for a directory whose
own later readdir would fail. -/
def FsNode.isDirectory : FsNode → Bool
  | FsNode.file => false
  | _ => true

/-- The recursion filter of getDirectoriesRecursive (extension.js lines
454-459): directories only, name not starting with a dot and not equal to
node_modules. -/
def includeEntry (name : JStr) (child : FsNode) : Bool :=
  child.isDirectory && !((jstr ".").isPrefixOf name) && decide (name ≠ jstr "node_modules")

/-- Traversal core of getDirectoriesRecursive with fuel = maxDepth minus
currentDepth, the number of levels still allowed.  Each included child
contributes its own relative path followed by the recursively collected
subfolder paths, in readdir order; a file or a failing readdir contributes
nothing (the catch swallows the error).  Paths are segment lists relative to
the enumeration root; path.relative joins the segments with the separator. -/
def getDirsAux : FsNode → Nat → List (List JStr)
  | _, 0 => []
  | FsNode.dir entries, fuel+1 =>
      entries.foldr (fun e acc =>
        if includeEntry e.1 e.2 then
          ([e.1] :: (getDirsAux e.2 fuel).map (fun p => e.1 :: p)) ++ acc
        else acc) []
  | FsNode.file, _+1 => []
  | FsNode.unreadableDir, _+1 => []

/-- getDirectoriesRecursive (extension.js lines 441-479), with the source
signature: returns [] as soon as currentDepth is at least maxDepth and
otherwise recurses with currentDepth + 1, which is exactly running the core
on fuel maxDepth - currentDepth (see getDirectoriesRecursive_eq). -/
def getDirectoriesRecursive (node : FsNode) (maxDepth currentDepth : Nat) :
    List (List JStr) :=
  getDirsAux node (maxDepth - currentDepth)

/-- The embedding satisfies the literal recurrence of the source: stop when
currentDepth is at least maxDepth, else fold over the readdir entries and
recurse at currentDepth + 1. -/
theorem getDirectoriesRecursive_eq (node : FsNode) (maxDepth currentDepth : Nat) :
    getDirectoriesRecursive node maxDepth currentDepth =
      if currentDepth ≥ maxDepth then []
      else
        match node with
        | FsNode.dir entries =>
            entries.foldr (fun e acc =>
              if includeEntry e.1 e.2 then
                ([e.1] ::
                  (getDirectoriesRecursive e.2 maxDepth (currentDepth+1)).map
                    (fun p => e.1 :: p)) ++ acc
              else acc) []
        | _ => [] := by
  unfold getDirectoriesRecursive
  by_cases h : currentDepth ≥ maxDepth
  · have h0 : maxDepth - currentDepth = 0 := Nat.sub_eq_zero_of_le h
    rw [if_pos h, h0]
    cases node <;> rfl
  · have h1 : maxDepth - currentDepth = (maxDepth - (currentDepth+1)) + 1 := by omega
    rw [if_neg h, h1]
    cases node <;> rfl

theorem foldr_filter_append {α β : Type} (l : List α) (c : α → Bool)
    (g : α → List β) :
    l.foldr (fun e acc => if c e then g e ++ acc else acc) [] =
      l.flatMap (fun e => if c e then g e else []) := by
  induction l with
  | nil => rfl
  | cons e es ih =>
    by_cases h : c e <;> simp [h, ih]

/-- Membership characterization of one traversal level. -/
theorem mem_getDirsAux_dir (entries : List (JStr × FsNode)) (fuel : Nat)
    (p : List JStr) :
    p ∈ getDirsAux (FsNode.dir entries) (fuel+1) ↔
      ∃ e ∈ entries, includeEntry e.1 e.2 = true ∧
        (p = [e.1] ∨ ∃ q ∈ getDirsAux e.2 fuel, p = e.1 :: q) := by
  show p ∈ entries.foldr _ [] ↔ _
  rw [foldr_filter_append]
  simp only [List.mem_flatMap]
  refine exists_congr (fun e => and_congr_right (fun he => ?_))
  by_cases h : includeEntry e.1 e.2 = true
  · simp only [h, if_true, List.mem_cons, List.mem_map, true_and]
    constructor
    · rintro (hp | ⟨q, hq, hpq⟩)
      · exact Or.inl hp
      · exact Or.inr ⟨q, hq, hpq.symm⟩
    · rintro (hp | ⟨q, hq, hpq⟩)
      · exact Or.inl hp
      · exact Or.inr ⟨q, hq, hpq.symm⟩
  · simp [h]

/-- Every emitted path is non-empty and no longer than the fuel. -/
theorem getDirsAux_length (p : List JStr) :
    ∀ (node : FsNode) (fuel : Nat), p ∈ getDirsAux node fuel →
      1 ≤ p.length ∧ p.length ≤ fuel := by
  induction p with
  | nil =>
    intro node fuel h
    exfalso
    cases fuel with
    | zero => cases node <;> simp [getDirsAux] at h
    | succ f =>
      cases node with
      | file => simp [getDirsAux] at h
      | unreadableDir => simp [getDirsAux] at h
      | dir entries =>
        rw [mem_getDirsAux_dir] at h
        obtain ⟨e, _, _, hcase⟩ := h
        rcases hcase with hp | ⟨q, _, hp⟩ <;> simp at hp
  | cons name rest ih =>
    intro node fuel h
    cases fuel with
    | zero => cases node <;> simp [getDirsAux] at h
    | succ f =>
      cases node with
      | file => simp [getDirsAux] at h
      | unreadableDir => simp [getDirsAux] at h
      | dir entries =>
        rw [mem_getDirsAux_dir] at h
        obtain ⟨e, _, _, hcase⟩ := h
        rcases hcase with hp | ⟨q, hq, hp⟩
        · obtain ⟨rfl, rfl⟩ := List.cons.injEq .. ▸ hp
          simp
        · obtain ⟨rfl, rfl⟩ := List.cons.injEq .. ▸ hp
          have hq2 := ih e.2 f hq
          simp only [List.length_cons]
          omega

/-- A chain of included directory entries: each segment names an entry of the
current level that the enumerator would include, descending level by level. -/
def chainIncluded : List JStr → FsNode → Bool
  | [], _ => true
  | name :: rest, FsNode.dir entries =>
      entries.any (fun e =>
        decide (e.1 = name) && includeEntry e.1 e.2 && chainIncluded rest e.2)
  | _ :: _, FsNode.file => false
  | _ :: _, FsNode.unreadableDir => false

/-- Every non-empty included chain within the fuel bound is emitted. -/
theorem chain_mem_getDirsAux (p : List JStr) :
    ∀ (node : FsNode) (fuel : Nat), chainIncluded p node = true → p ≠ [] →
      p.length ≤ fuel → p ∈ getDirsAux node fuel := by
  induction p with
  | nil => intro node fuel _ hne _; exact absurd rfl hne
  | cons name rest ih =>
    intro node fuel hc hne hlen
    cases fuel with
    | zero => simp at hlen
    | succ f =>
      cases node with
      | file => simp [chainIncluded] at hc
      | unreadableDir => simp [chainIncluded] at hc
      | dir entries =>
        simp only [chainIncluded, List.any_eq_true, Bool.and_eq_true,
          decide_eq_true_eq] at hc
        obtain ⟨e, he, ⟨hname, hinc⟩, hchain⟩ := hc
        rw [mem_getDirsAux_dir]
        refine ⟨e, he, hinc, ?_⟩
        by_cases hr : rest = []
        · left
          rw [hr, hname]
        · right
          refine ⟨rest, ih e.2 f hchain hr ?_, by rw [hname]⟩
          simp at hlen
          omega

/-- Every segment of every emitted path passes the name filter. -/
theorem getDirsAux_segments (p : List JStr) :
    ∀ (node : FsNode) (fuel : Nat), p ∈ getDirsAux node fuel →
      ∀ s ∈ p, (jstr ".").isPrefixOf s = false ∧ s ≠ jstr "node_modules" := by
  induction p with
  | nil => intro node fuel _ s hs; simp at hs
  | cons name rest ih =>
    intro node fuel h s hs
    cases fuel with
    | zero => cases node <;> simp [getDirsAux] at h
    | succ f =>
      cases node with
      | file => simp [getDirsAux] at h
      | unreadableDir => simp [getDirsAux] at h
      | dir entries =>
        rw [mem_getDirsAux_dir] at h
        obtain ⟨e, _, hinc, hcase⟩ := h
        simp only [includeEntry, Bool.and_eq_true, Bool.not_eq_true',
          decide_eq_true_eq] at hinc
        obtain ⟨⟨_, hdot⟩, hnm⟩ := hinc
        rcases hcase with hp | ⟨q, hq, hp⟩
        · obtain ⟨rfl, rfl⟩ := List.cons.injEq .. ▸ hp
          rcases List.mem_cons.mp hs with rfl | hs2
          · exact ⟨hdot, hnm⟩
          · simp at hs2
        · obtain ⟨rfl, rfl⟩ := List.cons.injEq .. ▸ hp
          rcases List.mem_cons.mp hs with rfl | hs2
          · exact ⟨hdot, hnm⟩
          · exact ih e.2 f hq s hs2

/-- The lexicographic name order used to model String.prototype.localeCompare
in the children sort. -/
def lexLe : JStr → JStr → Bool
  | [], _ => true
  | _ :: _, [] => false
  | a :: as, b :: bs => if a = b then lexLe as bs else decide (a < b)

/-- The sort comparator of the children array (extension.js lines 682-687):
equal kinds compare by name, otherwise directories come first. -/
def childBefore (a b : DirEntry) : Bool :=
  if a.isDir = b.isDir then lexLe a.name b.name else a.isDir

/-- FileExplorerTreeDataProvider.getChildren on a directory element
(extension.js lines 654-695, first variant).  A failing readdir is caught:
the method logs and returns an empty listing, an ordinary success.  Otherwise
entries whose name starts with a dot or equals node_modules are skipped and
the rest are sorted, directories before files, each group by name (the stable
JS sort modeled by insertion sort, localeCompare by lexLe). -/
def fileExplorerGetChildren (listing : Option (List DirEntry)) :
    Except Unit (List DirEntry) :=
  match listing with
  | none => Except.ok []
  | some entries =>
    Except.ok (List.insertionSort (fun a b => childBefore a b = true)
      (entries.filter (fun e =>
        !((jstr ".").isPrefixOf e.name) && decide (e.name ≠ jstr "node_modules"))))

/-- C4: with maxDepth 3 from the root, every emitted directory lies between 1
and 3 levels below the root, so a directory 4 or more levels deep never
appears; every included chain of length exactly 3 is emitted; and in general
the recursion stops as soon as currentDepth is at least maxDepth. -/
theorem c4_depth_bound (node : FsNode) :
    (∀ p, p ∈ getDirectoriesRecursive node 3 0 → 1 ≤ p.length ∧ p.length ≤ 3) ∧
    (∀ p, chainIncluded p node = true → p.length = 3 →
      p ∈ getDirectoriesRecursive node 3 0) ∧
    (∀ maxDepth currentDepth, maxDepth ≤ currentDepth →
      getDirectoriesRecursive node maxDepth currentDepth = []) := by
  refine ⟨?_, ?_, ?_⟩
  · intro p hp
    exact getDirsAux_length p node 3 hp
  · intro p hc hlen
    refine chain_mem_getDirsAux p node 3 hc ?_ (le_of_eq hlen)
    intro h
    rw [h] at hlen
    simp at hlen
  · intro m d hmd
    unfold getDirectoriesRecursive
    rw [Nat.sub_eq_zero_of_le hmd]
    cases node <;> rfl

/-- C4 witness: the chain a/b/c three levels below the root of a concrete
tree is emitted by the enumeration at maxDepth 3. -/
theorem c4_depth_bound_witness :
    [jstr "a", jstr "b", jstr "c"] ∈
      getDirectoriesRecursive
        (FsNode.dir [(jstr "a", FsNode.dir [(jstr "b",
          FsNode.dir [(jstr "c", FsNode.dir [])])])]) 3 0 :=
  (c4_depth_bound
    (FsNode.dir [(jstr "a", FsNode.dir [(jstr "b",
      FsNode.dir [(jstr "c", FsNode.dir [])])])])).2.1
    [jstr "a", jstr "b", jstr "c"] (by decide) (by decide)

/-- C3 counterexample: with no active scope the overlay readDirectory passes
a .git entry straight through, so a dot-named entry does appear in the output
of a listing operation of the system. -/
theorem c3_counterexample_overlay_shows_dot :
    readDirectory [] (some [⟨jstr ".git", true⟩]) none [] =
      Except.ok [(jstr ".git", FileType.directory)] := rfl

/-- C3 amended: the recursive enumerator and the scoped file tree child
listing never emit an entry whose name starts with a dot or equals
node_modules; the overlay readDirectory applies no name-based exclusion, and
with no active scope it passes every raw entry through, dot-named entries
included. -/
theorem c3_hidden_names (node : FsNode) (maxDepth currentDepth : Nat)
    (p : List JStr) (s : JStr) (entries : List DirEntry) (out : List DirEntry)
    (e : DirEntry) (dirRel : JStr) (scopes : ScopeMap) :
    (p ∈ getDirectoriesRecursive node maxDepth currentDepth → s ∈ p →
      (jstr ".").isPrefixOf s = false ∧ s ≠ jstr "node_modules") ∧
    (fileExplorerGetChildren (some entries) = Except.ok out → e ∈ out →
      (jstr ".").isPrefixOf e.name = false ∧ e.name ≠ jstr "node_modules") ∧
    readDirectory dirRel (some entries) none scopes =
      Except.ok (entries.map (fun x => (x.name, entryType x))) := by
  refine ⟨?_, ?_, readDirectory_all_visible dirRel entries none scopes (fun _ => rfl)⟩
  · intro hp hs
    exact getDirsAux_segments p node (maxDepth - currentDepth) hp s hs
  · intro hout he
    simp only [fileExplorerGetChildren] at hout
    obtain rfl := (Except.ok.injEq .. ▸ hout)
    have hmem := ((List.perm_insertionSort
      (fun a b => childBefore a b = true) _).mem_iff).mp he
    have hfil := List.mem_filter.mp hmem
    simpa only [Bool.and_eq_true, Bool.not_eq_true', decide_eq_true_eq]
      using hfil.2

/-- C3 witness: concrete runs of the enumerator and of the tree child listing
on inputs containing a .git sibling. -/
theorem c3_hidden_names_witness :
    ((jstr ".").isPrefixOf (jstr "src") = false ∧ jstr "src" ≠ jstr "node_modules") ∧
    ((jstr ".").isPrefixOf
        (DirEntry.mk (jstr "src") true).name = false ∧
      (DirEntry.mk (jstr "src") true).name ≠ jstr "node_modules") :=
  ⟨(c3_hidden_names (FsNode.dir [(jstr "src", FsNode.dir []),
        (jstr ".git", FsNode.dir [])]) 3 0
      [jstr "src"] (jstr "src") [] [] ⟨[], false⟩ [] []).1 (by decide) (by decide),
    (c3_hidden_names FsNode.file 3 0 [] []
      [⟨jstr "src", true⟩, ⟨jstr ".git", true⟩] [⟨jstr "src", true⟩]
      ⟨jstr "src", true⟩ [] []).2.1 rfl (by decide)⟩

/-- C6 counterexample: when readdir of the requested directory fails, the
scoped file tree child listing catches the failure and returns an ordinary
empty listing instead of reporting an error to the caller. -/
theorem c6_counterexample_tree_returns_empty :
    fileExplorerGetChildren none = Except.ok [] ∧
    fileExplorerGetChildren none ≠ Except.error () :=
  ⟨rfl, fun h => Except.noConfusion h⟩

/-- C6 amended: a read failure of the immediately requested directory is
reported as an error by the overlay readDirectory; the scoped file tree child
listing catches it and returns an empty listing; and the recursive enumerator
swallows per-directory failures: an unreadable directory contributes no
subtree while the overall call still succeeds and still lists the unreadable
directory itself. -/
theorem c6_failure_reporting (dirRel : JStr) (a : Option JStr)
    (scopes : ScopeMap) :
    readDirectory dirRel none a scopes = Except.error () ∧
    fileExplorerGetChildren none = Except.ok [] ∧
    (∀ maxDepth currentDepth,
      getDirectoriesRecursive FsNode.unreadableDir maxDepth currentDepth = []) ∧
    (∀ name rest maxDepth currentDepth, currentDepth < maxDepth →
      (jstr ".").isPrefixOf name = false → name ≠ jstr "node_modules" →
      [name] ∈ getDirectoriesRecursive
        (FsNode.dir ((name, FsNode.unreadableDir) :: rest)) maxDepth currentDepth) := by
  refine ⟨rfl, rfl, ?_, ?_⟩
  · intro m d
    unfold getDirectoriesRecursive
    cases hmd : m - d with
    | zero => rfl
    | succ k => rfl
  · intro name rest m d hlt hdot hnm
    have h1 : m - d = (m - (d+1)) + 1 := by omega
    unfold getDirectoriesRecursive
    rw [h1, mem_getDirsAux_dir]
    refine ⟨(name, FsNode.unreadableDir), List.mem_cons_self .., ?_, Or.inl rfl⟩
    simp [includeEntry, FsNode.isDirectory, hdot, hnm]

/-- C6 witness: a concrete tree whose only child directory is unreadable is
still enumerated, the child itself listed with an empty subtree. -/
theorem c6_failure_reporting_witness :
    [jstr "x"] ∈ getDirectoriesRecursive
      (FsNode.dir [(jstr "x", FsNode.unreadableDir)]) 3 0 :=
  (c6_failure_reporting [] none []).2.2.2 (jstr "x") [] 3 0
    (by decide) (by decide) (by decide)

end ProjectScopes
